import Mathlib

/-!
Verification of the free-slot computation engine in `calender_api.py`
(`_merge_intervals`, `generate_aligned_starts`, `suggest_slots`).

Modelling conventions (shallow embedding):
* An instant is an integer number of seconds on the local timeline of the
  request's timezone, with epoch at a local midnight.  The source converts
  every datetime into the configured zone (`astimezone(tzinfo)`) before any
  arithmetic, so the whole computation happens on this single local
  timeline; the timezone is modelled as a fixed offset (DST transitions are
  outside the model).  Hence `dt.date()` is `t / 86400`, `dt.minute` is
  `t / 60 % 60`, and `datetime.combine(d, time)` is `86400 * d + time`.
* Durations given in minutes (`duration_min`, `step_minutes`) are scaled by
  60 wherever the source wraps them in `timedelta(minutes=...)`.
* Busy intervals are the already-parsed `(start, end)` pairs the source
  builds from the FreeBusy response; fetching and ISO parsing are I/O glue
  outside the engine.
* The source's `while` loop in `generate_aligned_starts` terminates only
  for a positive step; the embedding guards on `0 < step_minutes` and
  returns `[]` otherwise (the source would not terminate there).
* The several `if len(suggestions) >= max_suggestions: break` checks in
  `suggest_slots` stop the enumeration as soon as `max_suggestions` items
  have been appended; since every append is followed immediately by such a
  check, the list built by the loops equals the first `max_suggestions`
  elements of the full day-by-day enumeration, which `List.take` renders.
-/

namespace CalendarApi

/-- Fold of the source's merge loop in `_merge_intervals`: `cur` is the
interval currently being grown (`merged[-1]`); an incoming `(s, e)` with
`s <= cur.2` extends `cur`'s end to `max cur.2 e`, otherwise `cur` is
emitted and `(s, e)` starts a new block. -/
def mergeFold (cur : ℤ × ℤ) : List (ℤ × ℤ) → List (ℤ × ℤ)
  | [] => [cur]
  | (s, e) :: rest =>
      if s ≤ cur.2 then mergeFold (cur.1, max cur.2 e) rest
      else cur :: mergeFold (s, e) rest

/-- Embedding of `sorted(intervals, key=lambda x: x[0])`.  Python's `sorted`
is a stable sort by the start key; `List.insertionSort` with this relation
is also stable, and any two stable sorts of the same list by the same key
agree, so the two are extensionally equal (insertion sort is used because
its recursion is structural). -/
def sortByStart (l : List (ℤ × ℤ)) : List (ℤ × ℤ) :=
  l.insertionSort (fun a b => a.1 ≤ b.1)

/-- Embedding of `_merge_intervals` (calender_api.py lines 65-76): sort by
start, then coalesce every interval whose start is `<=` the running
interval's end. -/
def _merge_intervals (intervals : List (ℤ × ℤ)) : List (ℤ × ℤ) :=
  match sortByStart intervals with
  | [] => []
  | first :: rest => mergeFold first rest

/-- Embedding of the rounding prelude of `generate_aligned_starts`
(lines 147-150): truncate the minute field down to a multiple of
`step_minutes` and zero the seconds (`minute = (start_dt.minute //
step_minutes) * step_minutes; base = start_dt.replace(minute=minute,
second=0, microsecond=0)`), then bump by one step if that fell strictly
before `start_dt`. -/
def alignedBase (step_minutes start_dt : ℤ) : ℤ :=
  let minute := start_dt / 60 % 60 / step_minutes * step_minutes
  let base := start_dt - start_dt % 3600 + 60 * minute
  if base < start_dt then base + 60 * step_minutes else base

/-- Body of the `while` loop of `generate_aligned_starts` (lines 151-154),
with an explicit fuel so the recursion is structural: yield `cur` and
advance by `step_minutes` as long as `cur + duration_min <= end_dt`.
Guarded on `0 < step_minutes` for termination (see the module comment). -/
def whileLoop (step_minutes duration_min end_dt : ℤ) : ℕ → ℤ → List ℤ
  | 0, _ => []
  | fuel + 1, cur =>
      if 0 < step_minutes ∧ cur + 60 * duration_min ≤ end_dt then
        cur :: whileLoop step_minutes duration_min end_dt fuel (cur + 60 * step_minutes)
      else []

/-- Embedding of the `while` loop of `generate_aligned_starts`, started with
fuel that is provably sufficient (`whileCandidates_unfold` below recovers
the source's exact loop step, fuel-free). -/
def whileCandidates (step_minutes duration_min end_dt cur : ℤ) : List ℤ :=
  whileLoop step_minutes duration_min end_dt
    ((end_dt - 60 * duration_min - cur).toNat + 1) cur

/-- Embedding of `generate_aligned_starts` (lines 145-154). -/
def generate_aligned_starts (step_minutes duration_min start_dt end_dt : ℤ) : List ℤ :=
  whileCandidates step_minutes duration_min end_dt (alignedBase step_minutes start_dt)

/-- Embedding of `day_work_range` (lines 107-112): the working window of
calendar day `d` runs from `d` midnight plus `working_start` to `d`
midnight plus `working_end` (both wall-clock seconds of day). -/
def day_work_range (working_start working_end d : ℤ) : ℤ × ℤ :=
  (86400 * d + working_start, 86400 * d + working_end)

/-- Embedding of the per-day clipping loop (lines 166-171): keep the busy
intervals that overlap `[day_start, day_end)` (the `continue` cases are the
filter) and truncate each survivor to the window boundaries. -/
def clipList (busyM : List (ℤ × ℤ)) (day_start day_end : ℤ) : List (ℤ × ℤ) :=
  (busyM.filter fun b => !(decide (b.2 ≤ day_start) || decide (b.1 ≥ day_end))).map
    fun b => (max b.1 day_start, min b.2 day_end)

/-- Embedding of lines 166-172: clip to the day's window, then merge again
(line 172). -/
def overlappingFor (busyM : List (ℤ × ℤ)) (day_start day_end : ℤ) : List (ℤ × ℤ) :=
  _merge_intervals (clipList busyM day_start day_end)

/-- Embedding of the gap walk (lines 174-199): candidates between the
pointer and each busy start, advancing the pointer to `max pointer bend`
after each busy block, then candidates between the final pointer and
`day_end`. -/
def gapCandidates (step_minutes duration_min day_end : ℤ) :
    ℤ → List (ℤ × ℤ) → List ℤ
  | pointer, [] => generate_aligned_starts step_minutes duration_min pointer day_end
  | pointer, (bstart, bend) :: rest =>
      generate_aligned_starts step_minutes duration_min pointer bstart ++
        gapCandidates step_minutes duration_min day_end (max pointer bend) rest

/-- Candidate starts produced for one calendar day of the loop at
lines 157-199: build the day's working window, clamp its start to the
anchor on the anchor's own day (lines 162-164), clip the merged busy set
to the window, and walk the gaps. -/
def dayCandidates (anchor duration_min working_start working_end step_minutes : ℤ)
    (busyM : List (ℤ × ℤ)) (single_day : ℤ) : List ℤ :=
  let w := day_work_range working_start working_end single_day
  let day_start := if single_day = anchor / 86400 then max w.1 anchor else w.1
  gapCandidates step_minutes duration_min w.2 day_start
    (overlappingFor busyM day_start w.2)

/-- Embedding of the final dedup loop (lines 201-208): keep the first
occurrence of each `(start, end)` pair, tracking the already-seen keys. -/
def dedupKeep (seen : List (ℤ × ℤ)) : List (ℤ × ℤ) → List (ℤ × ℤ)
  | [] => []
  | x :: xs => if x ∈ seen then dedupKeep seen xs else x :: dedupKeep (x :: seen) xs

/-- Embedding of `suggest_slots` (lines 79-209).  The slots are returned as
`(start, start + duration)` pairs of local instants.  `start_date` is the
anchor's calendar day, `end_date` the day of `anchor + days` days; the
source iterates `range((end_date - start_date).days + 1)` calendar days.
The `max_suggestions` short-circuit appears as `List.take` (module
comment), and the final `unique[:max_suggestions]` as the outer take. -/
def suggest_slots (anchor duration_min days working_start working_end : ℤ)
    (max_suggestions : ℕ) (step_minutes : ℤ) (busy : List (ℤ × ℤ)) : List (ℤ × ℤ) :=
  let start_date := anchor / 86400
  let end_date := (anchor + 86400 * days) / 86400
  let busyM := _merge_intervals busy
  let allCands := (List.range (end_date - start_date + 1).toNat).flatMap fun n =>
    dayCandidates anchor duration_min working_start working_end step_minutes busyM
      (start_date + n)
  let suggestions := (allCands.map fun c => (c, c + 60 * duration_min)).take max_suggestions
  (dedupKeep [] suggestions).take max_suggestions

/-! ### Basic facts about the candidate loop -/

/-- Coverage predicate: some interval of `l` contains the instant `t`
(half-open intervals `[start, end)`). -/
def covers (l : List (ℤ × ℤ)) (t : ℤ) : Prop :=
  ∃ p ∈ l, p.1 ≤ t ∧ t < p.2

theorem whileLoop_guard_false {step dur e cur : ℤ}
    (h : ¬(0 < step ∧ cur + 60 * dur ≤ e)) (f : ℕ) :
    whileLoop step dur e f cur = [] := by
  cases f <;> simp [whileLoop, h]

theorem whileLoop_congr (step dur e : ℤ) :
    ∀ f g : ℕ, ∀ cur : ℤ, (e - 60 * dur - cur).toNat < f →
      (e - 60 * dur - cur).toNat < g →
      whileLoop step dur e f cur = whileLoop step dur e g cur := by
  intro f
  induction f with
  | zero => intro g cur hf _; exact absurd hf (Nat.not_lt_zero _)
  | succ f ih =>
      intro g cur hf hg
      match g, hg with
      | g + 1, hg =>
        by_cases hc : 0 < step ∧ cur + 60 * dur ≤ e
        · simp only [whileLoop, if_pos hc]
          by_cases hc' : cur + 60 * step + 60 * dur ≤ e
          · have h1 : (e - 60 * dur - (cur + 60 * step)).toNat < f := by omega
            have h2 : (e - 60 * dur - (cur + 60 * step)).toNat < g := by omega
            rw [ih g (cur + 60 * step) h1 h2]
          · rw [whileLoop_guard_false (by tauto), whileLoop_guard_false (by tauto)]
        · simp only [whileLoop, if_neg hc]

theorem whileCandidates_unfold (step dur e cur : ℤ) :
    whileCandidates step dur e cur =
      if 0 < step ∧ cur + 60 * dur ≤ e then
        cur :: whileCandidates step dur e (cur + 60 * step)
      else [] := by
  by_cases hc : 0 < step ∧ cur + 60 * dur ≤ e
  · rw [if_pos hc]
    show whileLoop step dur e ((e - 60 * dur - cur).toNat + 1) cur = _
    rw [show whileLoop step dur e ((e - 60 * dur - cur).toNat + 1) cur
        = cur :: whileLoop step dur e (e - 60 * dur - cur).toNat (cur + 60 * step) from by
      simp [whileLoop, hc]]
    show _ = cur :: whileLoop step dur e
      ((e - 60 * dur - (cur + 60 * step)).toNat + 1) (cur + 60 * step)
    by_cases hc' : cur + 60 * step + 60 * dur ≤ e
    · exact congrArg (List.cons cur)
        (whileLoop_congr step dur e _ _ _ (by omega) (by omega))
    · rw [whileLoop_guard_false (by tauto), whileLoop_guard_false (by tauto)]
  · rw [if_neg hc]
    exact whileLoop_guard_false hc _

theorem whileLoop_mem {step dur e : ℤ} :
    ∀ {f : ℕ} {cur c : ℤ}, c ∈ whileLoop step dur e f cur →
      cur ≤ c ∧ c + 60 * dur ≤ e := by
  intro f
  induction f with
  | zero => intro cur c hc; simp [whileLoop] at hc
  | succ f ih =>
      intro cur c hc
      simp only [whileLoop] at hc
      split at hc
      · rename_i hg
        rcases List.mem_cons.mp hc with rfl | hc
        · exact ⟨le_refl _, hg.2⟩
        · have := ih hc
          constructor
          · have := hg.1; omega
          · exact this.2
      · simp at hc

theorem whileCandidates_mem {step dur e cur c : ℤ}
    (hc : c ∈ whileCandidates step dur e cur) :
    cur ≤ c ∧ c + 60 * dur ≤ e :=
  whileLoop_mem hc

theorem whileLoop_mem_multiple {step dur e : ℤ} :
    ∀ {f : ℕ} {cur c : ℤ}, c ∈ whileLoop step dur e f cur →
      ∃ k : ℕ, c = cur + 60 * step * k := by
  intro f
  induction f with
  | zero => intro cur c hc; simp [whileLoop] at hc
  | succ f ih =>
      intro cur c hc
      simp only [whileLoop] at hc
      split at hc
      · rcases List.mem_cons.mp hc with rfl | hc
        · exact ⟨0, by ring⟩
        · obtain ⟨k, hk⟩ := ih hc
          exact ⟨k + 1, by push_cast [hk]; ring⟩
      · simp at hc

theorem whileCandidates_mem_of {step dur e : ℤ} (hstep : 0 < step) :
    ∀ (k : ℕ) (cur : ℤ), cur + 60 * step * k + 60 * dur ≤ e →
      cur + 60 * step * k ∈ whileCandidates step dur e cur := by
  intro k
  induction k with
  | zero =>
      intro cur hfit
      rw [whileCandidates_unfold]
      rw [if_pos ⟨hstep, by omega⟩]
      simp
  | succ k ih =>
      intro cur hfit
      rw [whileCandidates_unfold]
      have hfit' : cur + 60 * dur ≤ e := by
        have : (0 : ℤ) ≤ 60 * step * (k + 1 : ℕ) := by positivity
        omega
      rw [if_pos ⟨hstep, hfit'⟩]
      refine List.mem_cons.mpr (Or.inr ?_)
      have := ih (cur + 60 * step) (by push_cast at hfit ⊢; linarith)
      have harg : cur + 60 * step + 60 * step * k = cur + 60 * step * (k + 1 : ℕ) := by
        push_cast; ring
      rwa [harg] at this

theorem whileCandidates_mem_iff {step dur e cur c : ℤ} (hstep : 0 < step) :
    c ∈ whileCandidates step dur e cur ↔
      ∃ k : ℕ, c = cur + 60 * step * k ∧ c + 60 * dur ≤ e := by
  constructor
  · intro hc
    obtain ⟨k, hk⟩ := whileLoop_mem_multiple hc
    exact ⟨k, hk, (whileLoop_mem hc).2⟩
  · rintro ⟨k, rfl, hfit⟩
    exact whileCandidates_mem_of hstep k cur hfit

theorem whileLoop_pairwise {step dur e : ℤ} :
    ∀ (f : ℕ) (cur : ℤ), List.Pairwise (· < ·) (whileLoop step dur e f cur) := by
  intro f
  induction f with
  | zero => intro cur; simp [whileLoop]
  | succ f ih =>
      intro cur
      simp only [whileLoop]
      split
      · rename_i hg
        refine List.pairwise_cons.mpr ⟨?_, ih _⟩
        intro y hy
        have := (whileLoop_mem hy).1
        have := hg.1
        omega
      · simp

theorem whileCandidates_pairwise (step dur e cur : ℤ) :
    List.Pairwise (· < ·) (whileCandidates step dur e cur) :=
  whileLoop_pairwise _ _

theorem whileLoop_length {step dur e : ℤ} (hstep : 0 < step) :
    ∀ (f : ℕ) (cur : ℤ), (e - 60 * dur - cur).toNat < f →
      (whileLoop step dur e f cur).length =
        if cur + 60 * dur ≤ e then
          (e - 60 * dur - cur).toNat / (60 * step).toNat + 1
        else 0 := by
  intro f
  induction f with
  | zero => intro cur hf; exact absurd hf (Nat.not_lt_zero _)
  | succ f ih =>
      intro cur hf
      by_cases hg : cur + 60 * dur ≤ e
      · simp only [whileLoop, if_pos (⟨hstep, hg⟩ : 0 < step ∧ cur + 60 * dur ≤ e),
          List.length_cons, if_pos hg]
        by_cases hg' : cur + 60 * step + 60 * dur ≤ e
        · rw [ih (cur + 60 * step) (by omega), if_pos hg']
          have hsplit : (e - 60 * dur - cur).toNat
              = (e - 60 * dur - (cur + 60 * step)).toNat + (60 * step).toNat := by
            omega
          rw [hsplit, Nat.add_div_right _ (by omega)]
        · rw [whileLoop_guard_false (by tauto)]
          have hlt : (e - 60 * dur - cur).toNat < (60 * step).toNat := by omega
          simp [Nat.div_eq_of_lt hlt]
      · rw [whileLoop_guard_false (by tauto), if_neg hg]
        rfl

theorem whileCandidates_length {step dur e cur : ℤ} (hstep : 0 < step) :
    (whileCandidates step dur e cur).length =
      if cur + 60 * dur ≤ e then
        (e - 60 * dur - cur).toNat / (60 * step).toNat + 1
      else 0 :=
  whileLoop_length hstep _ cur (by omega)

/-! ### Facts about interval merging -/

theorem covers_cons {p : ℤ × ℤ} {l : List (ℤ × ℤ)} {t : ℤ} :
    covers (p :: l) t ↔ (p.1 ≤ t ∧ t < p.2) ∨ covers l t := by
  constructor
  · rintro ⟨q, hq, hq2⟩
    rcases List.mem_cons.mp hq with rfl | hq'
    · exact Or.inl hq2
    · exact Or.inr ⟨q, hq', hq2⟩
  · rintro (h | ⟨q, hq, hq2⟩)
    · exact ⟨p, List.mem_cons_self p l, h⟩
    · exact ⟨q, List.mem_cons_of_mem _ hq, hq2⟩

theorem covers_of_perm {l l' : List (ℤ × ℤ)} (h : l.Perm l') {t : ℤ} :
    covers l t ↔ covers l' t := by
  constructor <;> rintro ⟨q, hq, hq2⟩
  · exact ⟨q, h.mem_iff.mp hq, hq2⟩
  · exact ⟨q, h.mem_iff.mpr hq, hq2⟩

theorem sortByStart_perm (l : List (ℤ × ℤ)) : (sortByStart l).Perm l :=
  List.perm_insertionSort _ l

theorem sortByStart_sorted (l : List (ℤ × ℤ)) :
    List.Pairwise (fun a b : ℤ × ℤ => a.1 ≤ b.1) (sortByStart l) := by
  haveI : IsTotal (ℤ × ℤ) (fun a b : ℤ × ℤ => a.1 ≤ b.1) :=
    ⟨fun a b => le_total a.1 b.1⟩
  haveI : IsTrans (ℤ × ℤ) (fun a b : ℤ × ℤ => a.1 ≤ b.1) :=
    ⟨fun _ _ _ hab hbc => le_trans hab hbc⟩
  exact List.sorted_insertionSort _ l

theorem sortByStart_of_sorted {l : List (ℤ × ℤ)}
    (h : List.Pairwise (fun a b : ℤ × ℤ => a.1 ≤ b.1) l) : sortByStart l = l :=
  List.Sorted.insertionSort_eq h

theorem mergeFold_head (cur : ℤ × ℤ) (l : List (ℤ × ℤ)) :
    ∃ b tail, mergeFold cur l = (cur.1, b) :: tail ∧ cur.2 ≤ b := by
  induction l generalizing cur with
  | nil => exact ⟨cur.2, [], by simp [mergeFold], le_refl _⟩
  | cons p rest ih =>
      obtain ⟨s, e⟩ := p
      simp only [mergeFold]
      split
      · obtain ⟨b, tail, heq, hle⟩ := ih (cur.1, max cur.2 e)
        exact ⟨b, tail, heq, le_trans (le_max_left _ _) hle⟩
      · exact ⟨cur.2, mergeFold (s, e) rest, rfl, le_refl _⟩

theorem mergeFold_start_le {l : List (ℤ × ℤ)} {cur : ℤ × ℤ}
    (hl : List.Pairwise (fun a b : ℤ × ℤ => a.1 ≤ b.1) l)
    (hcur : ∀ x ∈ l, cur.1 ≤ x.1) :
    ∀ y ∈ mergeFold cur l, cur.1 ≤ y.1 := by
  induction l generalizing cur with
  | nil => intro y hy; simp only [mergeFold, List.mem_singleton] at hy; simp [hy]
  | cons p rest ih =>
      obtain ⟨s, e⟩ := p
      intro y hy
      simp only [mergeFold] at hy
      split at hy
      · exact @ih (cur.1, max cur.2 e) (List.pairwise_cons.mp hl).2
          (fun x hx => hcur x (List.mem_cons_of_mem _ hx)) y hy
      · rcases List.mem_cons.mp hy with rfl | hy'
        · exact le_refl _
        · have hs : cur.1 ≤ s := hcur (s, e) (List.mem_cons_self _ _)
          have := @ih (s, e) (List.pairwise_cons.mp hl).2
            (fun x hx => (List.pairwise_cons.mp hl).1 x hx) y hy'
          exact le_trans hs this

theorem mergeFold_sorted {l : List (ℤ × ℤ)} {cur : ℤ × ℤ}
    (hl : List.Pairwise (fun a b : ℤ × ℤ => a.1 ≤ b.1) l)
    (hcur : ∀ x ∈ l, cur.1 ≤ x.1) :
    List.Pairwise (fun a b : ℤ × ℤ => a.1 ≤ b.1) (mergeFold cur l) := by
  induction l generalizing cur with
  | nil => simp [mergeFold]
  | cons p rest ih =>
      obtain ⟨s, e⟩ := p
      simp only [mergeFold]
      split
      · exact ih (List.pairwise_cons.mp hl).2
          (fun x hx => hcur x (List.mem_cons_of_mem _ hx))
      · refine List.pairwise_cons.mpr ⟨?_, ih (List.pairwise_cons.mp hl).2
          (fun x hx => (List.pairwise_cons.mp hl).1 x hx)⟩
        intro y hy
        have hs : cur.1 ≤ s := hcur (s, e) (List.mem_cons_self _ _)
        exact le_trans hs (mergeFold_start_le (List.pairwise_cons.mp hl).2
          (fun x hx => (List.pairwise_cons.mp hl).1 x hx) y hy)

theorem mergeFold_chain {l : List (ℤ × ℤ)} {cur : ℤ × ℤ}
    (hl : List.Pairwise (fun a b : ℤ × ℤ => a.1 ≤ b.1) l) :
    List.Chain' (fun a b : ℤ × ℤ => a.2 < b.1) (mergeFold cur l) := by
  induction l generalizing cur with
  | nil => simp [mergeFold]
  | cons p rest ih =>
      obtain ⟨s, e⟩ := p
      simp only [mergeFold]
      split
      · exact ih (List.pairwise_cons.mp hl).2
      · rename_i hguard
        obtain ⟨b, tail, heq, _⟩ := mergeFold_head (s, e) rest
        rw [heq]
        refine List.chain'_cons.mpr ⟨by simpa using by omega, ?_⟩
        rw [← heq]
        exact ih (List.pairwise_cons.mp hl).2

theorem mergeFold_wf {l : List (ℤ × ℤ)} {cur : ℤ × ℤ}
    (hc : cur.1 < cur.2) (hl : ∀ x ∈ l, x.1 < x.2) :
    ∀ y ∈ mergeFold cur l, y.1 < y.2 := by
  induction l generalizing cur with
  | nil => intro y hy; simp only [mergeFold, List.mem_singleton] at hy; simpa [hy]
  | cons p rest ih =>
      obtain ⟨s, e⟩ := p
      intro y hy
      simp only [mergeFold] at hy
      split at hy
      · exact @ih (cur.1, max cur.2 e) (lt_of_lt_of_le hc (le_max_left _ _))
          (fun x hx => hl x (List.mem_cons_of_mem _ hx)) y hy
      · rcases List.mem_cons.mp hy with rfl | hy'
        · exact hc
        · exact @ih (s, e) (hl (s, e) (List.mem_cons_self _ _))
            (fun x hx => hl x (List.mem_cons_of_mem _ hx)) y hy'

theorem mergeFold_starts {l : List (ℤ × ℤ)} {cur : ℤ × ℤ} :
    ∀ y ∈ mergeFold cur l, y.1 = cur.1 ∨ ∃ x ∈ l, y.1 = x.1 := by
  induction l generalizing cur with
  | nil => intro y hy; simp only [mergeFold, List.mem_singleton] at hy; simp [hy]
  | cons p rest ih =>
      obtain ⟨s, e⟩ := p
      intro y hy
      simp only [mergeFold] at hy
      split at hy
      · rcases ih y hy with h | ⟨x, hx, hx'⟩
        · exact Or.inl h
        · exact Or.inr ⟨x, List.mem_cons_of_mem _ hx, hx'⟩
      · rcases List.mem_cons.mp hy with rfl | hy'
        · exact Or.inl rfl
        · rcases ih y hy' with h | ⟨x, hx, hx'⟩
          · exact Or.inr ⟨(s, e), List.mem_cons_self _ _, h⟩
          · exact Or.inr ⟨x, List.mem_cons_of_mem _ hx, hx'⟩

theorem mergeFold_covers {l : List (ℤ × ℤ)} {cur : ℤ × ℤ}
    (hl : List.Pairwise (fun a b : ℤ × ℤ => a.1 ≤ b.1) l)
    (hcur : ∀ x ∈ l, cur.1 ≤ x.1) (t : ℤ) :
    covers (mergeFold cur l) t ↔ (cur.1 ≤ t ∧ t < cur.2) ∨ covers l t := by
  induction l generalizing cur with
  | nil => simp [mergeFold, covers]
  | cons p rest ih =>
      obtain ⟨s, e⟩ := p
      simp only [mergeFold]
      split
      · rename_i hguard
        rw [@ih (cur.1, max cur.2 e) (List.pairwise_cons.mp hl).2
          (fun x hx => hcur x (List.mem_cons_of_mem _ hx)), covers_cons]
        dsimp only
        have hs : cur.1 ≤ s := hcur (s, e) (List.mem_cons_self _ _)
        constructor
        · rintro (⟨h1, h2⟩ | h)
          · rcases le_total cur.2 e with hme | hme
            · rw [max_eq_right hme] at h2
              by_cases ht : t < cur.2
              · exact Or.inl ⟨h1, ht⟩
              · exact Or.inr (Or.inl ⟨by omega, h2⟩)
            · rw [max_eq_left hme] at h2
              exact Or.inl ⟨h1, h2⟩
          · exact Or.inr (Or.inr h)
        · rintro (⟨h1, h2⟩ | ⟨h1, h2⟩ | h)
          · exact Or.inl ⟨h1, lt_of_lt_of_le h2 (le_max_left _ _)⟩
          · exact Or.inl ⟨by omega, lt_of_lt_of_le h2 (le_max_right _ _)⟩
          · exact Or.inr h
      · rename_i hguard
        rw [covers_cons, covers_cons,
          @ih (s, e) (List.pairwise_cons.mp hl).2
            (fun x hx => (List.pairwise_cons.mp hl).1 x hx)]

theorem merge_intervals_sorted (X : List (ℤ × ℤ)) :
    List.Pairwise (fun a b : ℤ × ℤ => a.1 ≤ b.1) (_merge_intervals X) := by
  unfold _merge_intervals
  rcases h : sortByStart X with _ | ⟨first, rest⟩
  · simp
  · have hs := sortByStart_sorted X
    rw [h] at hs
    exact mergeFold_sorted (List.pairwise_cons.mp hs).2 (List.pairwise_cons.mp hs).1

theorem merge_intervals_chain (X : List (ℤ × ℤ)) :
    List.Chain' (fun a b : ℤ × ℤ => a.2 < b.1) (_merge_intervals X) := by
  unfold _merge_intervals
  rcases h : sortByStart X with _ | ⟨first, rest⟩
  · simp
  · have hs := sortByStart_sorted X
    rw [h] at hs
    exact mergeFold_chain (List.pairwise_cons.mp hs).2

theorem merge_intervals_wf {X : List (ℤ × ℤ)} (hX : ∀ x ∈ X, x.1 < x.2) :
    ∀ y ∈ _merge_intervals X, y.1 < y.2 := by
  unfold _merge_intervals
  rcases h : sortByStart X with _ | ⟨first, rest⟩
  · simp
  · have hperm := sortByStart_perm X
    rw [h] at hperm
    have hX' : ∀ x ∈ first :: rest, x.1 < x.2 := fun x hx => hX x (hperm.mem_iff.mp hx)
    exact mergeFold_wf (hX' first (List.mem_cons_self _ _))
      (fun x hx => hX' x (List.mem_cons_of_mem _ hx))

theorem merge_intervals_starts (X : List (ℤ × ℤ)) :
    ∀ y ∈ _merge_intervals X, ∃ x ∈ X, y.1 = x.1 := by
  unfold _merge_intervals
  rcases h : sortByStart X with _ | ⟨first, rest⟩
  · simp
  · have hperm := sortByStart_perm X
    rw [h] at hperm
    intro y hy
    rcases mergeFold_starts y hy with h1 | ⟨x, hx, hx'⟩
    · exact ⟨first, hperm.mem_iff.mp (List.mem_cons_self _ _), h1⟩
    · exact ⟨x, hperm.mem_iff.mp (List.mem_cons_of_mem _ hx), hx'⟩

theorem merge_intervals_covers (X : List (ℤ × ℤ)) (t : ℤ) :
    covers (_merge_intervals X) t ↔ covers X t := by
  unfold _merge_intervals
  rcases h : sortByStart X with _ | ⟨first, rest⟩
  · have hperm := sortByStart_perm X
    rw [h] at hperm
    rw [← covers_of_perm hperm]
  · have hs := sortByStart_sorted X
    rw [h] at hs
    have hperm := sortByStart_perm X
    rw [h] at hperm
    rw [mergeFold_covers (List.pairwise_cons.mp hs).2 (List.pairwise_cons.mp hs).1,
      ← covers_cons]
    exact covers_of_perm hperm

theorem pairwise_of_chain_sep {l : List (ℤ × ℤ)} (hwf : ∀ x ∈ l, x.1 < x.2)
    (hch : List.Chain' (fun a b : ℤ × ℤ => a.2 < b.1) l) :
    List.Pairwise (fun a b : ℤ × ℤ => a.2 < b.1) l := by
  induction l with
  | nil => simp
  | cons a l ih =>
      rw [List.chain'_cons'] at hch
      refine List.pairwise_cons.mpr
        ⟨?_, ih (fun x hx => hwf x (List.mem_cons_of_mem _ hx)) hch.2⟩
      intro c hc
      rcases l with _ | ⟨b, tail⟩
      · simp at hc
      · have hab : a.2 < b.1 := hch.1 b rfl
        rcases List.mem_cons.mp hc with rfl | hc'
        · exact hab
        · have hp := ih (fun x hx => hwf x (List.mem_cons_of_mem _ hx)) hch.2
          have hbc : b.2 < c.1 := (List.pairwise_cons.mp hp).1 c hc'
          have hbwf : b.1 < b.2 := hwf b (List.mem_cons_of_mem _ (List.mem_cons_self _ _))
          omega

theorem mergeFold_of_chain {l : List (ℤ × ℤ)} {cur : ℤ × ℤ}
    (h : List.Chain' (fun a b : ℤ × ℤ => a.2 < b.1) (cur :: l)) :
    mergeFold cur l = cur :: l := by
  induction l generalizing cur with
  | nil => simp [mergeFold]
  | cons p rest ih =>
      obtain ⟨s, e⟩ := p
      rw [List.chain'_cons] at h
      simp only [mergeFold, if_neg (by omega : ¬ s ≤ cur.2)]
      rw [ih h.2]

/-! ### Grid alignment -/

/-- Alignment to the grid in the spec's sense: the instant has zero seconds
and its minute-of-hour is a whole multiple of `step` minutes past the top
of the hour. -/
def gridAligned (step c : ℤ) : Prop :=
  c % 60 = 0 ∧ c / 60 % 60 % step = 0

instance (step c : ℤ) : Decidable (gridAligned step c) := by
  unfold gridAligned; infer_instance

theorem alignedBase_ge {step start : ℤ} (hstep : 0 < step) :
    start ≤ alignedBase step start := by
  have h1 := Int.ediv_add_emod (start / 60 % 60) step
  have h2 : 0 ≤ start / 60 % 60 % step := Int.emod_nonneg _ (by omega)
  have h3 : start / 60 % 60 % step < step := Int.emod_lt_of_pos _ hstep
  have hX : start / 60 % 60 / step * step = start / 60 % 60 - start / 60 % 60 % step := by
    have h2' : start / 60 % 60 / step * step = step * (start / 60 % 60 / step) :=
      mul_comm _ _
    linarith
  simp only [alignedBase]
  rw [hX]
  generalize start / 60 % 60 % step = r at h2 h3 ⊢
  split <;> omega

theorem alignedBase_lt_add {step start : ℤ} (hstep : 0 < step) :
    alignedBase step start < start + 60 * step := by
  have h1 := Int.ediv_add_emod (start / 60 % 60) step
  have h2 : 0 ≤ start / 60 % 60 % step := Int.emod_nonneg _ (by omega)
  have h3 : start / 60 % 60 % step < step := Int.emod_lt_of_pos _ hstep
  have hX : start / 60 % 60 / step * step = start / 60 % 60 - start / 60 % 60 % step := by
    have h2' : start / 60 % 60 / step * step = step * (start / 60 % 60 / step) :=
      mul_comm _ _
    linarith
  simp only [alignedBase]
  rw [hX]
  generalize start / 60 % 60 % step = r at h2 h3 ⊢
  split <;> omega

theorem alignedBase_dvd {step start : ℤ} (_hstep : 0 < step) (hdvd : step ∣ 60) :
    (60 * step) ∣ alignedBase step start := by
  have h1 := Int.ediv_add_emod (start / 60 % 60) step
  have hX : start / 60 % 60 / step * step = start / 60 % 60 - start / 60 % 60 % step := by
    have h2' : start / 60 % 60 / step * step = step * (start / 60 % 60 / step) :=
      mul_comm _ _
    linarith
  have hmm : start / 60 % 60 % step = start / 60 % step :=
    Int.emod_emod_of_dvd _ hdvd
  have hc := Int.ediv_add_emod (start / 60) step
  have hbase0 : start - start % 3600 + 60 * (start / 60 % 60 / step * step)
      = 60 * step * (start / 60 / step) := by
    rw [hX, hmm]
    have he : 60 * step * (start / 60 / step) = 60 * (step * (start / 60 / step)) := by
      ring
    rw [he]
    generalize step * (start / 60 / step) = P at hc ⊢
    omega
  simp only [alignedBase]
  split
  · rw [hbase0]
    exact dvd_add (dvd_mul_right _ _) dvd_rfl
  · rw [hbase0]
    exact dvd_mul_right _ _

theorem generate_mem {step dur s e c : ℤ} (hstep : 0 < step)
    (hc : c ∈ generate_aligned_starts step dur s e) :
    s ≤ c ∧ c + 60 * dur ≤ e := by
  have h := whileCandidates_mem hc
  exact ⟨le_trans (alignedBase_ge hstep) h.1, h.2⟩

theorem generate_pairwise (step dur s e : ℤ) :
    List.Pairwise (· < ·) (generate_aligned_starts step dur s e) :=
  whileCandidates_pairwise _ _ _ _

theorem gridAligned_iff_dvd {step c : ℤ} (hdvd : step ∣ 60) :
    gridAligned step c ↔ (60 * step) ∣ c := by
  unfold gridAligned
  constructor
  · rintro ⟨h60, hstepdvd⟩
    rw [Int.emod_emod_of_dvd _ hdvd] at hstepdvd
    obtain ⟨j, hj⟩ := Int.dvd_of_emod_eq_zero hstepdvd
    obtain ⟨i, hi⟩ := Int.dvd_of_emod_eq_zero h60
    refine ⟨j, ?_⟩
    have hc60 : c / 60 * 60 = c := Int.ediv_mul_cancel ⟨i, hi⟩
    calc c = c / 60 * 60 := hc60.symm
      _ = step * j * 60 := by rw [hj]
      _ = 60 * step * j := by ring
  · rintro ⟨j, rfl⟩
    constructor
    · rw [show (60 : ℤ) * step * j = 60 * (step * j) by ring, Int.mul_emod_right]
    · rw [show (60 : ℤ) * step * j = 60 * (step * j) by ring,
        Int.mul_ediv_cancel_left _ (by norm_num : (60 : ℤ) ≠ 0),
        Int.emod_emod_of_dvd _ hdvd, Int.mul_emod_right]

theorem generate_mem_iff {step dur s e c : ℤ} (hstep : 0 < step) (hdvd : step ∣ 60) :
    c ∈ generate_aligned_starts step dur s e ↔
      (60 * step) ∣ c ∧ s ≤ c ∧ c + 60 * dur ≤ e := by
  unfold generate_aligned_starts
  rw [whileCandidates_mem_iff hstep]
  constructor
  · rintro ⟨k, rfl, hfit⟩
    refine ⟨dvd_add (alignedBase_dvd hstep hdvd) ⟨(k : ℤ), by ring⟩, ?_, hfit⟩
    have h1 := @alignedBase_ge step s hstep
    have hk : (0 : ℤ) ≤ 60 * step * (k : ℕ) := by positivity
    omega
  · rintro ⟨hdvdc, hsc, hfit⟩
    obtain ⟨j, hj⟩ := dvd_sub hdvdc (@alignedBase_dvd step s hstep hdvd)
    have h60 : (0 : ℤ) < 60 * step := by positivity
    have hlt := @alignedBase_lt_add step s hstep
    have hgt : 60 * step * (-1) < 60 * step * j := by
      have hd : c - alignedBase step s > -(60 * step) := by linarith
      linarith
    have hjpos : (0 : ℤ) ≤ j := by
      have := (mul_lt_mul_left h60).mp hgt
      omega
    refine ⟨j.toNat, ?_, hfit⟩
    rw [Int.toNat_of_nonneg hjpos]
    linarith

theorem gapCandidates_mem {step dur dayE : ℤ} (hstep : 0 < step) :
    ∀ {bl : List (ℤ × ℤ)} {pointer c : ℤ},
      List.Pairwise (fun a b : ℤ × ℤ => a.1 ≤ b.1) bl →
      c ∈ gapCandidates step dur dayE pointer bl →
      pointer ≤ c ∧ (∀ b ∈ bl, c + 60 * dur ≤ b.1 ∨ b.2 ≤ c) ∧
        (c + 60 * dur ≤ dayE ∨ ∃ b ∈ bl, c + 60 * dur ≤ b.1) := by
  intro bl
  induction bl with
  | nil =>
      intro pointer c _ hc
      simp only [gapCandidates] at hc
      have h := generate_mem hstep hc
      exact ⟨h.1, by simp, Or.inl h.2⟩
  | cons p rest ih =>
      obtain ⟨bs, be⟩ := p
      intro pointer c hsorted hc
      simp only [gapCandidates, List.mem_append] at hc
      rcases hc with hc | hc
      · have h := generate_mem hstep hc
        refine ⟨h.1, ?_, Or.inr ⟨(bs, be), List.mem_cons_self _ _, h.2⟩⟩
        intro b hb
        rcases List.mem_cons.mp hb with rfl | hb'
        · exact Or.inl h.2
        · exact Or.inl (le_trans h.2 ((List.pairwise_cons.mp hsorted).1 b hb'))
      · have h := ih (List.pairwise_cons.mp hsorted).2 hc
        refine ⟨le_trans (le_max_left _ _) h.1, ?_, ?_⟩
        · intro b hb
          rcases List.mem_cons.mp hb with rfl | hb'
          · exact Or.inr (le_trans (le_max_right _ _) h.1)
          · exact h.2.1 b hb'
        · rcases h.2.2 with h' | ⟨b, hb, h'⟩
          · exact Or.inl h'
          · exact Or.inr ⟨b, List.mem_cons_of_mem _ hb, h'⟩

theorem gapCandidates_pairwise {step dur dayE : ℤ} (hstep : 0 < step) (hdur : 0 < dur) :
    ∀ {bl : List (ℤ × ℤ)} {pointer : ℤ},
      List.Pairwise (fun a b : ℤ × ℤ => a.1 ≤ b.1) bl →
      (∀ b ∈ bl, b.1 < b.2) →
      List.Pairwise (· < ·) (gapCandidates step dur dayE pointer bl) := by
  intro bl
  induction bl with
  | nil => intro pointer _ _; exact generate_pairwise _ _ _ _
  | cons p rest ih =>
      obtain ⟨bs, be⟩ := p
      intro pointer hsorted hwf
      simp only [gapCandidates]
      rw [List.pairwise_append]
      refine ⟨generate_pairwise _ _ _ _,
        ih (List.pairwise_cons.mp hsorted).2
          (fun b hb => hwf b (List.mem_cons_of_mem _ hb)), ?_⟩
      intro x hx y hy
      have hxb := generate_mem hstep hx
      have hyb := (gapCandidates_mem hstep (List.pairwise_cons.mp hsorted).2 hy).1
      have hbe : bs < be := hwf (bs, be) (List.mem_cons_self _ _)
      have hmax := le_max_right pointer be
      omega

theorem mem_clipList {busyM : List (ℤ × ℤ)} {ds de : ℤ} {x : ℤ × ℤ}
    (hx : x ∈ clipList busyM ds de) :
    ∃ b ∈ busyM, ds < b.2 ∧ b.1 < de ∧ x = (max b.1 ds, min b.2 de) := by
  obtain ⟨b, hb, rfl⟩ := List.mem_map.mp hx
  have h := List.mem_filter.mp hb
  have h2 := h.2
  simp only [Bool.not_eq_eq_eq_not, Bool.not_true, Bool.or_eq_false_iff,
    decide_eq_false_iff_not, not_le, ge_iff_le] at h2
  exact ⟨b, h.1, h2.1, h2.2, rfl⟩

theorem clipList_mem {busyM : List (ℤ × ℤ)} {ds de : ℤ} {b : ℤ × ℤ}
    (hb : b ∈ busyM) (h2 : ds < b.2) (h1 : b.1 < de) :
    (max b.1 ds, min b.2 de) ∈ clipList busyM ds de := by
  refine List.mem_map.mpr ⟨b, List.mem_filter.mpr ⟨hb, ?_⟩, rfl⟩
  simp only [Bool.not_eq_eq_eq_not, Bool.not_true, Bool.or_eq_false_iff,
    decide_eq_false_iff_not, not_le, ge_iff_le]
  exact ⟨h2, h1⟩

theorem dayCandidates_sound {anchor dur ws we step d c : ℤ} {busyM : List (ℤ × ℤ)}
    (hstep : 0 < step) (hdur : 0 < dur)
    (hc : c ∈ dayCandidates anchor dur ws we step busyM d) :
    (if d = anchor / 86400 then max (86400 * d + ws) anchor else 86400 * d + ws) ≤ c ∧
      c + 60 * dur ≤ 86400 * d + we ∧
      ∀ t : ℤ, c ≤ t → t < c + 60 * dur → ¬ covers busyM t := by
  simp only [dayCandidates, day_work_range] at hc
  set ds := if d = anchor / 86400 then max (86400 * d + ws) anchor
    else 86400 * d + ws with hds
  have hsorted := merge_intervals_sorted (clipList busyM ds (86400 * d + we))
  have hg := gapCandidates_mem hstep hsorted hc
  have hupper : c + 60 * dur ≤ 86400 * d + we := by
    rcases hg.2.2 with h | ⟨b, hb, hfit⟩
    · exact h
    · obtain ⟨x, hx, hbx⟩ := merge_intervals_starts _ b hb
      obtain ⟨b0, hb0, hb02, hb01, hxeq⟩ := mem_clipList hx
      rw [hxeq] at hbx
      have hg1 := hg.1
      rcases le_total b0.1 ds with h1 | h1
      · rw [show (max b0.1 ds, min b0.2 (86400 * d + we)).1 = ds from
          by simp [max_eq_right h1]] at hbx
        omega
      · rw [show (max b0.1 ds, min b0.2 (86400 * d + we)).1 = b0.1 from
          by simp [max_eq_left h1]] at hbx
        omega
  refine ⟨hg.1, hupper, ?_⟩
  rintro t ht1 ht2 ⟨m, hm, hm1, hm2⟩
  have hg1 := hg.1
  have hmem : (max m.1 ds, min m.2 (86400 * d + we))
      ∈ clipList busyM ds (86400 * d + we) :=
    clipList_mem hm (by omega) (by omega)
  have hcov : covers (overlappingFor busyM ds (86400 * d + we)) t :=
    (merge_intervals_covers _ t).mpr
      ⟨_, hmem, by
        constructor
        · exact max_le (by omega) (by omega)
        · exact lt_min (by omega) (by omega)⟩
  obtain ⟨cl, hcl, hcl2⟩ := hcov
  rcases hg.2.1 cl hcl with h | h <;> omega

theorem dayCandidates_empty {anchor dur ws we step d : ℤ} {busyM : List (ℤ × ℤ)}
    (hstep : 0 < step) (hdur : 0 < dur)
    (hle : 86400 * d + we ≤
      if d = anchor / 86400 then max (86400 * d + ws) anchor else 86400 * d + ws) :
    dayCandidates anchor dur ws we step busyM d = [] := by
  rw [List.eq_nil_iff_forall_not_mem]
  intro c hc
  have h := dayCandidates_sound hstep hdur hc
  have h1 := h.1
  have h2 := h.2.1
  generalize (if d = anchor / 86400 then max (86400 * d + ws) anchor
    else 86400 * d + ws) = A at h1 hle
  omega

theorem dayCandidates_pairwise {anchor dur ws we step d : ℤ} {busyM : List (ℤ × ℤ)}
    (hstep : 0 < step) (hdur : 0 < dur)
    (hbwf : ∀ b ∈ busyM, b.1 < b.2) :
    List.Pairwise (· < ·) (dayCandidates anchor dur ws we step busyM d) := by
  by_cases hcase : (if d = anchor / 86400 then max (86400 * d + ws) anchor
      else 86400 * d + ws) < 86400 * d + we
  · simp only [dayCandidates, day_work_range]
    apply gapCandidates_pairwise hstep hdur (merge_intervals_sorted _)
    intro b hb
    refine merge_intervals_wf ?_ b hb
    intro x hx
    obtain ⟨b0, hb0, h2, h1, rfl⟩ := mem_clipList hx
    have hwf0 := hbwf b0 hb0
    show max b0.1 _ < min b0.2 _
    exact lt_min (max_lt hwf0 h2) (max_lt h1 hcase)
  · rw [dayCandidates_empty hstep hdur (le_of_not_lt hcase)]
    exact List.Pairwise.nil

theorem dedupKeep_mem : ∀ {seen l : List (ℤ × ℤ)} {x : ℤ × ℤ},
    x ∈ dedupKeep seen l → x ∈ l := by
  intro seen l
  induction l generalizing seen with
  | nil => intro x hx; simp [dedupKeep] at hx
  | cons a l ih =>
      intro x hx
      simp only [dedupKeep] at hx
      split at hx
      · exact List.mem_cons_of_mem _ (ih hx)
      · rcases List.mem_cons.mp hx with rfl | hx'
        · exact List.mem_cons_self _ _
        · exact List.mem_cons_of_mem _ (ih hx')

theorem dedupKeep_sublist : ∀ (seen l : List (ℤ × ℤ)),
    (dedupKeep seen l).Sublist l := by
  intro seen l
  induction l generalizing seen with
  | nil => simp [dedupKeep]
  | cons a l ih =>
      simp only [dedupKeep]
      split
      · exact (ih _).cons _
      · exact (ih _).cons₂ _

theorem end_date_eq (anchor days : ℤ) :
    (anchor + 86400 * days) / 86400 = anchor / 86400 + days := by
  rw [show anchor + 86400 * days = anchor + days * 86400 by ring]
  exact Int.add_mul_ediv_right _ _ (by norm_num)

theorem suggest_slots_mem {anchor dur days ws we step : ℤ} {maxS : ℕ}
    {busy : List (ℤ × ℤ)} {p : ℤ × ℤ}
    (hp : p ∈ suggest_slots anchor dur days ws we maxS step busy) :
    ∃ n : ℕ, (n : ℤ) ≤ days ∧
      p.1 ∈ dayCandidates anchor dur ws we step (_merge_intervals busy)
        (anchor / 86400 + n) ∧
      p.2 = p.1 + 60 * dur := by
  simp only [suggest_slots, end_date_eq] at hp
  have h1 := dedupKeep_mem (List.take_subset _ _ hp)
  have h2 := List.take_subset _ _ h1
  obtain ⟨c, hcmem, rfl⟩ := List.mem_map.mp h2
  obtain ⟨n, hn, hcd⟩ := List.mem_flatMap.mp hcmem
  have hn' := List.mem_range.mp hn
  refine ⟨n, ?_, hcd, rfl⟩
  omega

theorem pairwise_flatMap_range {f : ℕ → List ℤ} (k : ℕ)
    (h1 : ∀ n, List.Pairwise (· < ·) (f n))
    (h2 : ∀ m n, m < n → ∀ x ∈ f m, ∀ y ∈ f n, x < y) :
    List.Pairwise (· < ·) ((List.range k).flatMap f) := by
  induction k with
  | zero => simp
  | succ k ih =>
      rw [List.range_succ, List.flatMap_append, List.pairwise_append]
      refine ⟨ih, by simpa using h1 k, ?_⟩
      intro x hx y hy
      obtain ⟨m, hm, hxm⟩ := List.mem_flatMap.mp hx
      exact h2 m k (List.mem_range.mp hm) x hxm y (by simpa using hy)

theorem suggest_slots_pairwise {anchor dur days ws we step : ℤ} {maxS : ℕ}
    {busy : List (ℤ × ℤ)} (hstep : 0 < step) (hdur : 0 < dur)
    (hbwf : ∀ b ∈ busy, b.1 < b.2) (hws : 0 ≤ ws) (hwe : we ≤ 86400) :
    List.Pairwise (fun p q : ℤ × ℤ => p.1 < q.1)
      (suggest_slots anchor dur days ws we maxS step busy) := by
  simp only [suggest_slots]
  have hbwfM : ∀ b ∈ _merge_intervals busy, b.1 < b.2 := merge_intervals_wf hbwf
  have hall : List.Pairwise (· < ·)
      ((List.range ((anchor + 86400 * days) / 86400 - anchor / 86400 + 1).toNat).flatMap
        fun n => dayCandidates anchor dur ws we step (_merge_intervals busy)
          (anchor / 86400 + n)) := by
    refine pairwise_flatMap_range _ (fun n => dayCandidates_pairwise hstep hdur hbwfM) ?_
    intro m n hmn x hx y hy
    have hxs := dayCandidates_sound hstep hdur hx
    have hys := dayCandidates_sound hstep hdur hy
    have hy1 : 86400 * (anchor / 86400 + (n : ℤ)) + ws ≤ y := by
      refine le_trans ?_ hys.1
      split
      · exact le_max_left _ _
      · exact le_refl _
    have hx2 := hxs.2.1
    omega
  refine List.Pairwise.sublist (List.take_sublist _ _) ?_
  refine List.Pairwise.sublist (dedupKeep_sublist _ _) ?_
  refine List.Pairwise.sublist (List.take_sublist _ _) ?_
  exact (List.pairwise_map).mpr (hall.imp (fun h => h))

theorem suggest_slots_length_le {anchor dur days ws we step : ℤ} {maxS : ℕ}
    {busy : List (ℤ × ℤ)} :
    (suggest_slots anchor dur days ws we maxS step busy).length ≤ maxS := by
  simp only [suggest_slots]
  exact List.length_take_le _ _

/-! ### Claim theorems -/

/-- C1: for every request with positive duration and grid and every busy set
whose intervals all satisfy `start < end`, every slot returned by
`suggest_slots` lies within the working window of one of the searched days,
spans exactly the requested duration, and is disjoint from every supplied
busy interval; in the concrete scenario (busy 15:00-16:00, working hours
09:00-18:00, duration 30m, grid 30m, anchor 08:00 the same day) the first
emitted slot is 09:00-09:30 and no emitted slot starts inside
[15:00, 16:00). -/
theorem C1_suggest_slots_sound {anchor dur days ws we step : ℤ} {maxS : ℕ}
    {busy : List (ℤ × ℤ)} (hdur : 0 < dur) (hstep : 0 < step)
    (hbwf : ∀ b ∈ busy, b.1 < b.2) :
    (∀ p ∈ suggest_slots anchor dur days ws we maxS step busy,
      (∃ n : ℕ, (n : ℤ) ≤ days ∧
        86400 * (anchor / 86400 + n) + ws ≤ p.1 ∧
        p.2 ≤ 86400 * (anchor / 86400 + n) + we) ∧
      p.2 = p.1 + 60 * dur ∧
      (∀ b ∈ busy, p.1 + 60 * dur ≤ b.1 ∨ b.2 ≤ p.1)) ∧
    (suggest_slots 28800 30 1 32400 64800 3 30 [(54000, 57600)]).head?
      = some (32400, 34200) ∧
    (∀ p ∈ suggest_slots 28800 30 1 32400 64800 3 30 [(54000, 57600)],
      ¬(54000 ≤ p.1 ∧ p.1 < 57600)) := by
  refine ⟨?_, by decide, by decide⟩
  intro p hp
  obtain ⟨n, hn, hmem, heq⟩ := suggest_slots_mem hp
  have hs := dayCandidates_sound hstep hdur hmem
  have hw1 : 86400 * (anchor / 86400 + (n : ℤ)) + ws ≤ p.1 := by
    refine le_trans ?_ hs.1
    split
    · exact le_max_left _ _
    · exact le_refl _
  refine ⟨⟨n, hn, hw1, by omega⟩, heq, ?_⟩
  intro b hb
  by_contra hcon
  push_neg at hcon
  have hb1 : b.1 < p.1 + 60 * dur := by omega
  have hb2 : p.1 < b.2 := hcon.2
  have hbw : b.1 < b.2 := hbwf b hb
  refine hs.2.2 (max p.1 b.1) (le_max_left _ _) (max_lt (by omega) hb1) ?_
  exact (merge_intervals_covers busy _).mpr
    ⟨b, hb, le_max_right _ _, max_lt hb2 hbw⟩

/-- Witness for C1: the theorem applied to the concrete scenario yields the
disjointness of the first slot 09:00-09:30 from the busy block
[15:00, 16:00). -/
theorem C1_witness : (32400 : ℤ) + 60 * 30 ≤ 54000 ∨ (57600 : ℤ) ≤ 32400 :=
  ((@C1_suggest_slots_sound 28800 30 1 32400 64800 30 3 [(54000, 57600)]
    (by decide) (by decide) (by decide)).1 (32400, 34200) (by decide)).2.2
    (54000, 57600) (by decide)

/-- C2 (counterexample): `suggest_slots` performs no `SlotRequest`
validation and raises nothing: with inverted working hours
(`work_start` 18:00, `work_end` 09:00) the call completes normally and
returns the empty list, rather than raising a `ConfigurationError` (no
such error exists anywhere in the code, which has no raise path in the
slot engine). -/
theorem C2_counterexample :
    suggest_slots 28800 30 1 64800 32400 3 30 [] = [] := by decide

/-- C2 (amended): for every anchor, horizon, busy set and positive duration
and grid, whenever `work_start >= work_end` the engine silently returns the
empty list (a normal result, without raising any error). -/
theorem C2_no_validation {anchor dur days ws we step : ℤ} {maxS : ℕ}
    {busy : List (ℤ × ℤ)} (hdur : 0 < dur) (hstep : 0 < step)
    (hinv : we ≤ ws) :
    suggest_slots anchor dur days ws we maxS step busy = [] := by
  simp only [suggest_slots]
  rw [List.flatMap_eq_nil_iff.mpr (fun n _ => ?_)]
  · simp [dedupKeep]
  · apply dayCandidates_empty hstep hdur
    split
    · exact le_trans (by omega) (le_max_left _ _)
    · omega

/-- Witness for C2: the amended theorem applied to a concrete inverted
configuration with a nonempty busy set. -/
theorem C2_witness :
    suggest_slots 28800 30 1 64800 32400 3 30 [(54000, 57600)] = [] :=
  @C2_no_validation 28800 30 1 64800 32400 30 3 [(54000, 57600)]
    (by decide) (by decide) (by decide)

/-- C3 (counterexample): a busy interval with `start >= end`
(16:00 -> 15:00) does not cause the call to be rejected with an
`InputDataError`: the call completes normally and still computes slots
(no such error exists anywhere in the code). -/
theorem C3_counterexample :
    suggest_slots 28800 30 0 32400 64800 3 30 [(57600, 54000)]
      = [(32400, 34200), (34200, 36000), (36000, 37800)] := by decide

/-- C3 (amended): the engine never rejects a call: for every busy list,
including ones containing intervals with `start >= end`, the call completes
normally and every returned slot still lies inside the working window of
one of the searched days. -/
theorem C3_no_busy_validation {anchor dur days ws we step : ℤ} {maxS : ℕ}
    {busy : List (ℤ × ℤ)} (hdur : 0 < dur) (hstep : 0 < step) :
    ∀ p ∈ suggest_slots anchor dur days ws we maxS step busy,
      ∃ n : ℕ, (n : ℤ) ≤ days ∧
        86400 * (anchor / 86400 + n) + ws ≤ p.1 ∧
        p.1 + 60 * dur ≤ 86400 * (anchor / 86400 + n) + we := by
  intro p hp
  obtain ⟨n, hn, hmem, _⟩ := suggest_slots_mem hp
  have hs := dayCandidates_sound hstep hdur hmem
  have hw1 : 86400 * (anchor / 86400 + (n : ℤ)) + ws ≤ p.1 := by
    refine le_trans ?_ hs.1
    split
    · exact le_max_left _ _
    · exact le_refl _
  exact ⟨n, hn, hw1, hs.2.1⟩

/-- Witness for C3: the amended theorem applied to the malformed concrete
call pins the first slot 09:00-09:30 inside day zero's working window. -/
theorem C3_witness :
    (86400 : ℤ) * (28800 / 86400 + (0 : ℕ)) + 32400 ≤ 32400 ∧
      (32400 : ℤ) + 60 * 30 ≤ 86400 * (28800 / 86400 + (0 : ℕ)) + 64800 := by
  obtain ⟨n, hn, h1, h2⟩ :=
    @C3_no_busy_validation 28800 30 0 32400 64800 30 3 [(57600, 54000)]
      (by decide) (by decide) (32400, 34200) (by decide)
  have hn0 : n = 0 := by omega
  subst hn0
  exact ⟨h1, h2⟩

/-- C4 (counterexample): a slot whose start equals the anchor instant is
proposed when the anchor is grid-aligned and free: with anchor 09:00 the
first returned slot starts exactly at 09:00 on the anchor's own day, so a
slot with `start <= anchor` is emitted, refuting the claim. -/
theorem C4_counterexample :
    ((32400 : ℤ), (34200 : ℤ)) ∈ suggest_slots 32400 30 1 32400 64800 3 30 []
      ∧ (32400 : ℤ) / 86400 = 32400 / 86400 ∧ (32400 : ℤ) ≤ 32400 := by decide

/-- C4 (amended): no returned slot starts strictly before the anchor: for
every request with positive duration and grid and nonnegative
`work_start`, every slot satisfies `anchor <= slot.start` (equality is
attainable, so `start <= anchor` is possible but `start < anchor` is
not). -/
theorem C4_anchor_respected {anchor dur days ws we step : ℤ} {maxS : ℕ}
    {busy : List (ℤ × ℤ)} (hdur : 0 < dur) (hstep : 0 < step)
    (hws : 0 ≤ ws) :
    ∀ p ∈ suggest_slots anchor dur days ws we maxS step busy,
      anchor ≤ p.1 := by
  intro p hp
  obtain ⟨n, hn, hmem, _⟩ := suggest_slots_mem hp
  have hs := dayCandidates_sound hstep hdur hmem
  have h1 := hs.1
  rcases Nat.eq_zero_or_pos n with rfl | hpos
  · rw [if_pos (by push_cast; ring)] at h1
    exact le_trans (le_max_right _ _) h1
  · have hw1 : 86400 * (anchor / 86400 + (n : ℤ)) + ws ≤ p.1 := by
      refine le_trans ?_ h1
      split
      · exact le_max_left _ _
      · exact le_refl _
    have hcast : (1 : ℤ) ≤ (n : ℤ) := by exact_mod_cast hpos
    omega

/-- Witness for C4: the amended theorem applied to the concrete scenario
(anchor 08:00, first slot 09:00). -/
theorem C4_witness : (28800 : ℤ) ≤ 32400 :=
  @C4_anchor_respected 28800 30 1 32400 64800 30 3 [(54000, 57600)]
    (by decide) (by decide) (by decide) (32400, 34200) (by decide)

/-- C5 (counterexample): with `days = 1` the loop
`range((end_date - start_date).days + 1)` searches the day at offset 1 as
well: with day zero fully busy, a slot starting on the day at offset
1 = horizon_days is returned, refuting "no returned Slot starts on a day
at offset >= n". -/
theorem C5_counterexample :
    ((118800 : ℤ), (120600 : ℤ))
        ∈ suggest_slots 28800 30 1 32400 64800 3 30 [(32400, 64800)] ∧
      (118800 : ℤ) / 86400 = 28800 / 86400 + 1 := by decide

/-- C5 (amended): `suggest_slots` searches the days at offsets
`[0, horizon_days]` inclusive (`horizon_days + 1` days): every returned
slot starts on a day between the anchor's calendar day and the day at
offset `horizon_days` from it. -/
theorem C5_day_range {anchor dur days ws we step : ℤ} {maxS : ℕ}
    {busy : List (ℤ × ℤ)} (hdur : 0 < dur) (hstep : 0 < step)
    (hws : 0 ≤ ws) (hwe : we ≤ 86400) :
    ∀ p ∈ suggest_slots anchor dur days ws we maxS step busy,
      anchor / 86400 ≤ p.1 / 86400 ∧ p.1 / 86400 ≤ anchor / 86400 + days := by
  intro p hp
  obtain ⟨n, hn, hmem, _⟩ := suggest_slots_mem hp
  have hs := dayCandidates_sound hstep hdur hmem
  have hw1 : 86400 * (anchor / 86400 + (n : ℤ)) + ws ≤ p.1 := by
    refine le_trans ?_ hs.1
    split
    · exact le_max_left _ _
    · exact le_refl _
  have hw2 := hs.2.1
  have hday : p.1 / 86400 = anchor / 86400 + (n : ℤ) := by omega
  omega

/-- Witness for C5: the amended theorem applied to the concrete scenario,
placing the first slot on the anchor's own calendar day. -/
theorem C5_witness :
    (28800 : ℤ) / 86400 ≤ (32400 : ℤ) / 86400 ∧
      (32400 : ℤ) / 86400 ≤ 28800 / 86400 + 1 :=
  @C5_day_range 28800 30 1 32400 64800 30 3 [(54000, 57600)]
    (by decide) (by decide) (by decide) (by decide) (32400, 34200) (by decide)

/-- C6: `_merge_intervals` of a list of intervals each with `start < end`
is a time-ordered sequence in which no interval's end exceeds a later
interval's start, covering exactly the union of the input; empty input
yields empty output, and the two overlapping inputs [10:00, 11:00) and
[10:30, 12:00) yield exactly [10:00, 12:00). -/
theorem C6_merge_intervals_correct :
    (∀ X : List (ℤ × ℤ), (∀ b ∈ X, b.1 < b.2) →
      List.Pairwise (fun i j : ℤ × ℤ => i.2 ≤ j.1) (_merge_intervals X) ∧
      (∀ t : ℤ, covers (_merge_intervals X) t ↔ covers X t)) ∧
    _merge_intervals ([] : List (ℤ × ℤ)) = [] ∧
    _merge_intervals [(36000, 39600), (37800, 43200)] = [(36000, 43200)] := by
  refine ⟨?_, by decide, by decide⟩
  intro X hX
  refine ⟨?_, fun t => merge_intervals_covers X t⟩
  exact (pairwise_of_chain_sep (merge_intervals_wf hX) (merge_intervals_chain X)).imp
    le_of_lt

/-- Witness for C6: the theorem applied to the two overlapping concrete
intervals, with the union check evaluated at the instant 10:45. -/
theorem C6_witness :
    List.Pairwise (fun i j : ℤ × ℤ => i.2 ≤ j.1)
        (_merge_intervals [(36000, 39600), (37800, 43200)]) ∧
      (covers (_merge_intervals [(36000, 39600), (37800, 43200)]) 38700 ↔
        covers [(36000, 39600), (37800, 43200)] 38700) :=
  ⟨(C6_merge_intervals_correct.1 [(36000, 39600), (37800, 43200)] (by decide)).1,
   (C6_merge_intervals_correct.1 [(36000, 39600), (37800, 43200)] (by decide)).2 38700⟩

/-- C7: `_merge_intervals` is idempotent on every list of intervals,
well-formed or not. -/
theorem C7_merge_intervals_idem (X : List (ℤ × ℤ)) :
    _merge_intervals (_merge_intervals X) = _merge_intervals X := by
  have hsorted := merge_intervals_sorted X
  have hchain := merge_intervals_chain X
  rw [show _merge_intervals (_merge_intervals X)
      = match sortByStart (_merge_intervals X) with
        | [] => []
        | first :: rest => mergeFold first rest from rfl]
  rw [sortByStart_of_sorted hsorted]
  rcases hY : _merge_intervals X with _ | ⟨f, r⟩
  · rfl
  · show mergeFold f r = f :: r
    rw [hY] at hchain
    exact mergeFold_of_chain hchain

/-- C8 (counterexample): with `grid_minutes = 45` (which does not divide
60) and a gap starting at 09:50, the only emitted candidate is 10:30,
which is not a whole multiple of 45 minutes past the top of the hour, and
the aligned instant 10:00 (which is the smallest aligned instant at or
after the gap start and fits the gap) is skipped — refuting both the
"smallest aligned instant" and the alignment property as stated for every
`grid_minutes > 0`. -/
theorem C8_counterexample :
    generate_aligned_starts 45 30 35400 40200 = [37800] ∧
      ¬ gridAligned 45 37800 ∧
      gridAligned 45 36000 ∧ (35400 : ℤ) ≤ 36000 ∧
      36000 + 60 * 30 ≤ 40200 := by decide

/-- C8 (amended): when additionally `grid_minutes` divides 60, the
candidates generated for a gap are exactly the grid-aligned instants `c`
with `gap.start <= c` and `c + duration <= gap.end` (so they begin at the
smallest aligned instant at or past the gap start and advance by the
grid), listed in strictly increasing order. -/
theorem C8_aligned_grid {step dur s e : ℤ} (hstep : 0 < step)
    (hdvd : step ∣ 60) :
    (∀ c : ℤ, c ∈ generate_aligned_starts step dur s e ↔
      gridAligned step c ∧ s ≤ c ∧ c + 60 * dur ≤ e) ∧
    List.Pairwise (· < ·) (generate_aligned_starts step dur s e) := by
  refine ⟨fun c => ?_, generate_pairwise _ _ _ _⟩
  rw [generate_mem_iff hstep hdvd, gridAligned_iff_dvd hdvd]

/-- Witness for C8: the amended theorem applied to the spec's scenario 4
(45-minute meeting on a 30-minute grid in the gap [09:00, 10:00)):
09:00 itself is a valid candidate. -/
theorem C8_witness :
    (32400 : ℤ) ∈ generate_aligned_starts 30 45 32400 36000 ↔
      gridAligned 30 32400 ∧ (32400 : ℤ) ≤ 32400 ∧
        (32400 : ℤ) + 60 * 45 ≤ 36000 :=
  (@C8_aligned_grid 30 45 32400 36000 (by decide) (by decide)).1 32400

/-- C9: under the request invariants (positive duration and grid,
wall-clock working hours, well-formed busy intervals) the returned
sequence contains no duplicate `(start, end)` pair and is sorted in
ascending order of start. -/
theorem C9_suggest_slots_ordered {anchor dur days ws we step : ℤ} {maxS : ℕ}
    {busy : List (ℤ × ℤ)} (hdur : 0 < dur) (hstep : 0 < step)
    (hbwf : ∀ b ∈ busy, b.1 < b.2) (hws : 0 ≤ ws) (hwe : we ≤ 86400) :
    List.Pairwise (fun p q : ℤ × ℤ => p ≠ q)
        (suggest_slots anchor dur days ws we maxS step busy) ∧
      List.Pairwise (fun p q : ℤ × ℤ => p.1 ≤ q.1)
        (suggest_slots anchor dur days ws we maxS step busy) := by
  have h := @suggest_slots_pairwise anchor dur days ws we step maxS busy
    hstep hdur hbwf hws hwe
  constructor
  · refine h.imp ?_
    intro p q hpq he
    rw [he] at hpq
    exact lt_irrefl _ hpq
  · exact h.imp (fun hpq => le_of_lt hpq)

/-- Witness for C9: the theorem applied to the concrete scenario. -/
theorem C9_witness :
    List.Pairwise (fun p q : ℤ × ℤ => p ≠ q)
      (suggest_slots 28800 30 1 32400 64800 3 30 [(54000, 57600)]) :=
  (@C9_suggest_slots_ordered 28800 30 1 32400 64800 30 3 [(54000, 57600)]
    (by decide) (by decide) (by decide) (by decide) (by decide)).1

/-- C10: the engine is terminating and bounded: the returned sequence is a
finite list of length at most `max_suggestions`, and the candidate loop of
`generate_aligned_starts` runs an exactly computable finite number of
iterations for every gap (for positive grid). -/
theorem C10_suggest_slots_finite {anchor dur days ws we step : ℤ} {maxS : ℕ}
    {busy : List (ℤ × ℤ)} (hstep : 0 < step) :
    (suggest_slots anchor dur days ws we maxS step busy).length ≤ maxS ∧
    ∀ e cur : ℤ, (whileCandidates step dur e cur).length =
      if cur + 60 * dur ≤ e then
        (e - 60 * dur - cur).toNat / (60 * step).toNat + 1
      else 0 :=
  ⟨suggest_slots_length_le, fun _ _ => whileCandidates_length hstep⟩

/-- Witness for C10: the theorem applied to the concrete scenario, with the
loop-count formula evaluated on the gap [09:00, 15:00). -/
theorem C10_witness :
    (suggest_slots 28800 30 1 32400 64800 3 30 [(54000, 57600)]).length ≤ 3 ∧
      (whileCandidates 30 30 54000 32400).length =
        if (32400 : ℤ) + 60 * 30 ≤ 54000 then
          ((54000 : ℤ) - 60 * 30 - 32400).toNat / ((60 : ℤ) * 30).toNat + 1
        else 0 :=
  ⟨(@C10_suggest_slots_finite 28800 30 1 32400 64800 30 3 [(54000, 57600)]
      (by decide)).1,
   (@C10_suggest_slots_finite 28800 30 1 32400 64800 30 3 [(54000, 57600)]
      (by decide)).2 54000 32400⟩

end CalendarApi
